import Mathlib

/-!
# GumshoeDB core: a shallow embedding

This file embeds the parts of GumshoeDB's storage and query engine that the
verified claims are about.  The authoritative code under `src/` is the code
generator `gen.go` (whose template is the generated `types_gen.go`: the column
type enum, `MetricBytes.add`, and the per-(type, operator) filter closure
factories) together with the test files.  The remaining engine pieces
(insert pipeline, MemTable, flush/persistence, query executor) are not in
`src/`; their definitions below are modelled from the specification, and each
such definition's doc comment says so.

Conventions of the embedding:
* machine integers are modelled as `Int` together with the column's `GType`;
  a stored cell of an unsigned type of width `w` is an integer in
  `[0, 2^w)`, of a signed type in `[-2^(w-1), 2^(w-1))`.  Go's native
  wrapping arithmetic is `wrapCell`.
* `float32` columns are outside the model (floating point); no claim
  exercises them.  The user-side `float64` comparison values of the query
  interface are modelled as rationals (`ℚ`); Go's float-to-integer
  conversion truncates toward zero, which is `goTrunc`.
* a nullable dimension cell is an `Option Int`: `none` stands for the row's
  nil-bitmap bit for that column being set, `some x` for a clear bit and the
  typed value `x` stored at the column's offset.
-/

namespace Gumshoe

/-- The column type enum of `types_gen.go` (`TypeUint8` …).  `float32` is
omitted from the model: no verified claim touches a float column. -/
inductive GType where
  | TypeUint8
  | TypeInt8
  | TypeUint16
  | TypeInt16
  | TypeUint32
  | TypeInt32
  deriving DecidableEq, Repr

/-- Bit width of each type, as in `typeWidths` (there in bytes). -/
def GType.width : GType → Nat
  | .TypeUint8 => 8
  | .TypeInt8 => 8
  | .TypeUint16 => 16
  | .TypeInt16 => 16
  | .TypeUint32 => 32
  | .TypeInt32 => 32

def GType.isSigned : GType → Bool
  | .TypeInt8 | .TypeInt16 | .TypeInt32 => true
  | _ => false

/-- The result of storing the integer `x` in a machine cell of type `t`:
Go's wrapping semantics of fixed-width integer arithmetic. -/
def wrapCell (t : GType) (x : Int) : Int :=
  if t.isSigned then (x + 2 ^ (t.width - 1)) % 2 ^ t.width - 2 ^ (t.width - 1)
  else x % 2 ^ t.width

/-- `x` is a representable value of a cell of type `t`. -/
def cellInRange (t : GType) (x : Int) : Prop :=
  if t.isSigned then -(2 ^ (t.width - 1)) ≤ x ∧ x < 2 ^ (t.width - 1)
  else 0 ≤ x ∧ x < 2 ^ t.width

instance (t : GType) (x : Int) : Decidable (cellInRange t x) := by
  unfold cellInRange; infer_instance

/-- The metric section of a packed row: one typed cell per metric column,
in declaration order (the byte offsets of the source become positions). -/
abbrev MetricBytes := List Int

/-- `MetricBytes.add` of `types_gen.go`: add `other` to `m` pointwise, each
column in its own machine type with Go's native (wrapping) `+`.  The schema
argument of the source is reduced to the list of metric column types. -/
def MetricBytes.add (types : List GType) (m other : MetricBytes) : MetricBytes :=
  match types, m, other with
  | t :: ts, a :: ms, b :: os => wrapCell t (a + b) :: MetricBytes.add ts ms os
  | _, _, _ => []

/-- The all-zero metric vector (each type's zero value). -/
def zeroMetrics (types : List GType) : MetricBytes :=
  types.map fun _ => (0 : Int)

/-! ## Filter closures (`types_gen.go`) -/

/-- The binary-operator filters (`SimpleFilterTypes` of `gen.go`): the
members of the `FilterType` enum that carry a Go operator, i.e. all but
`FilterIn`.  `FilterGreaterThenOrEqual` keeps the source's spelling. -/
inductive SimpleFilterType where
  | FilterEqual
  | FilterNotEqual
  | FilterGreaterThan
  | FilterGreaterThenOrEqual
  | FilterLessThan
  | FilterLessThanOrEqual
  deriving DecidableEq, Repr

/-- `rowValue OP v` for a simple filter: the Go comparison operator applied
to the typed cell value `x` and the compiled comparison value `v`.  On the
integer representatives of same-typed cells, Go's typed comparison agrees
with the `Int` comparison. -/
def simpleCompare (f : SimpleFilterType) (x v : Int) : Bool :=
  match f with
  | .FilterEqual => x = v
  | .FilterNotEqual => x ≠ v
  | .FilterGreaterThan => v < x
  | .FilterGreaterThenOrEqual => v ≤ x
  | .FilterLessThan => x < v
  | .FilterLessThanOrEqual => x ≤ v

/-- Go's conversion of a `float64` (modelled as `ℚ`) to an integer:
truncation toward zero. -/
def goTrunc (q : ℚ) : Int :=
  q.num.tdiv (q.den : Int)

/-- Go's conversion `T(value)` of a `float64` to the integer column type
`t`: truncation toward zero whenever the truncated value is representable
in `t` (the case the Go spec defines; out of range the result is
implementation-defined, and the model keeps the truncated integer). -/
def convertValue (_t : GType) (q : ℚ) : Int :=
  goTrunc q

/-- The row-facing part of a compiled simple dimension filter
(`makeDimensionFilterFuncSimpleGen`): given the already-converted
comparison value `v`, test one nullable dimension cell.  A set nil bit
(`none`) returns `true` exactly for `FilterNotEqual`; otherwise the typed
comparison runs on the cell value. -/
def dimFilterSimpleApply (f : SimpleFilterType) (v : Int) : Option Int → Bool
  | none => f = .FilterNotEqual
  | some x => simpleCompare f x v

/-- `makeDimensionFilterFuncSimpleGen` with `isString = false`: the
user-supplied `float64` is converted once, to the column's type
(`v := T(value.(float64))`), and the comparison runs in that type. -/
def makeDimensionFilterFuncSimpleNumeric (t : GType) (f : SimpleFilterType)
    (value : ℚ) : Option Int → Bool :=
  dimFilterSimpleApply f (convertValue t value)

/-- `makeDimensionFilterFuncSimpleGen` with `isString = true`: the
comparison value arrives as the `uint32` dimension-table id
(`v := T(value.(uint32))`). -/
def makeDimensionFilterFuncSimpleString (f : SimpleFilterType) (id : Nat) :
    Option Int → Bool :=
  dimFilterSimpleApply f (id : Int)

/-- The row-facing part of `makeDimensionFilterFuncInGen`: with the
converted value list `typedValues` and the compile-time `acceptNil` flag,
a nil cell returns `acceptNil` and a non-nil cell is tested for membership. -/
def dimFilterInApply (typedValues : List Int) (acceptNil : Bool) :
    Option Int → Bool
  | none => acceptNil
  | some x => typedValues.contains x

/-- Modelled from the spec: the query compiler's caller of
`makeDimensionFilterFuncInGen` (not under `src/`) passes
`acceptNil` = "the user's value list contains nil" and the remaining
(numeric) values converted to the column type — "`in` with a list accepts
nil iff the list contains nil". -/
def dimFilterInFromList (t : GType) (userValues : List (Option ℚ)) :
    Option Int → Bool :=
  dimFilterInApply ((userValues.filterMap id).map (convertValue t))
    (userValues.contains none)

/-- `makeMetricFilterFuncSimpleGen`: metric columns are non-nullable, so
the compiled closure converts the `float64` once (`v := T(value)`) and
compares the cell in the column's type, with no nil check. -/
def makeMetricFilterFuncSimpleGen (t : GType) (f : SimpleFilterType)
    (value : ℚ) : Int → Bool :=
  fun x => simpleCompare f x (convertValue t value)

/-- `makeMetricFilterFuncInGen`: each `float64` of the list is converted to
the column's type up front; the closure tests membership in the converted
list. -/
def makeMetricFilterFuncInGen (t : GType) (floats : List ℚ) : Int → Bool :=
  fun x => (floats.map (convertValue t)).contains x

/-! ## MemTable staging and insert-time collapsing

The MemTable and the insert pipeline are not under `src/`; they are
modelled from the specification (§3 "MemTable", §4.5, §4.6), with the
metric summing taken from `MetricBytes.add` of `types_gen.go`. -/

/-- The row key of a packed row: everything except the metric bytes — the
timestamp and the dimension cells, nil bits included (`none` = nil bit
set). -/
structure RowKey where
  ts : Nat
  dims : List (Option Int)
  deriving DecidableEq, Repr

/-- One laid-out input row as it reaches the MemTable: row key, metric
cells, and the input count it carries (freshly inserted rows carry 1). -/
structure InputRow where
  key : RowKey
  metrics : MetricBytes
  count : Nat
  deriving DecidableEq, Repr

/-- One interval's worth of staged rows: an association list from row key
to (metric bytes, count).  The source keeps it ordered by key bytes; only
the map behaviour matters here, so entries are kept in first-insertion
order. -/
abbrev MemInterval := List (RowKey × MetricBytes × Nat)

/-- Modelled from the spec: the MemTable `upsert(row_key, metric_bytes,
input_count)` of §4.5 — "if present, pointwise-sum metrics (per column's
type) into the existing row and add counts; else store".  The pointwise
sum is `MetricBytes.add`. -/
def upsertMem (types : List GType) : MemInterval → RowKey → MetricBytes → Nat →
    MemInterval
  | [], k, m, c => [(k, m, c)]
  | (k', m', c') :: rest, k, m, c =>
    if k' = k then (k', MetricBytes.add types m' m, c' + c) :: rest
    else (k', m', c') :: upsertMem types rest k m c

/-- Modelled from the spec: inserting a batch routes each laid-out row to
its interval's MemTable upsert (§4.6 step 5); here a single interval's
rows, applied in input order. -/
def insertManyMem (types : List GType) (mt : MemInterval)
    (rows : List InputRow) : MemInterval :=
  rows.foldl (fun acc r => upsertMem types acc r.key r.metrics r.count) mt

/-- Look a row key up in a staged interval. -/
def lookupMem (mt : MemInterval) (k : RowKey) : Option (MetricBytes × Nat) :=
  match mt with
  | [] => none
  | (k', m', c') :: rest => if k' = k then some (m', c') else lookupMem rest k

/-- The collapse of a list of same-key input rows: pointwise typed sums of
their metrics and the sum of their counts (`none` when the list is empty). -/
def collapseRows (types : List GType) : List InputRow →
    Option (MetricBytes × Nat)
  | [] => none
  | r :: rest =>
    some (rest.foldl
      (fun acc r' => (MetricBytes.add types acc.1 r'.metrics, acc.2 + r'.count))
      (r.metrics, r.count))

/-- Merge of the results of two collapses (left side first). -/
def combineCollapsed (types : List GType) :
    Option (MetricBytes × Nat) → Option (MetricBytes × Nat) →
    Option (MetricBytes × Nat)
  | none, o => o
  | some x, none => some x
  | some (m, c), some (m₂, c₂) => some (MetricBytes.add types m m₂, c + c₂)

/-! ### Arithmetic facts about wrapping cells -/

theorem wrapCell_add_left (t : GType) (x y : Int) :
    wrapCell t (wrapCell t x + y) = wrapCell t (x + y) := by
  unfold wrapCell
  rcases t <;> simp [GType.isSigned, GType.width] <;> ring_nf <;>
    omega

theorem wrapCell_add_right (t : GType) (x y : Int) :
    wrapCell t (x + wrapCell t y) = wrapCell t (x + y) := by
  rw [Int.add_comm x, wrapCell_add_left, Int.add_comm]

theorem wrapCell_eq_of_range (t : GType) (x : Int) (h : cellInRange t x) :
    wrapCell t x = x := by
  unfold wrapCell cellInRange at *
  rcases t <;> simp [GType.isSigned, GType.width] at h ⊢ <;> omega

theorem MetricBytes.add_assoc (types : List GType) (a b c : MetricBytes) :
    MetricBytes.add types (MetricBytes.add types a b) c =
      MetricBytes.add types a (MetricBytes.add types b c) := by
  induction types generalizing a b c with
  | nil => rfl
  | cons t ts ih =>
    rcases a with _ | ⟨x, a⟩ <;> rcases b with _ | ⟨y, b⟩ <;>
      rcases c with _ | ⟨z, c⟩ <;>
      simp [MetricBytes.add, ih, wrapCell_add_left, wrapCell_add_right,
        Int.add_assoc]

theorem combineCollapsed_none_right (types : List GType)
    (o : Option (MetricBytes × Nat)) :
    combineCollapsed types o none = o := by
  rcases o with _ | ⟨m, c⟩ <;> rfl

theorem combineCollapsed_assoc (types : List GType)
    (a b c : Option (MetricBytes × Nat)) :
    combineCollapsed types (combineCollapsed types a b) c =
      combineCollapsed types a (combineCollapsed types b c) := by
  rcases a with _ | ⟨m₁, c₁⟩ <;> rcases b with _ | ⟨m₂, c₂⟩ <;>
    rcases c with _ | ⟨m₃, c₃⟩ <;>
    simp [combineCollapsed, MetricBytes.add_assoc, Nat.add_assoc]

/-! ### Lookup and key lemmas for the MemTable -/

theorem lookupMem_upsertMem_self (types : List GType) (mt : MemInterval)
    (k : RowKey) (m : MetricBytes) (c : Nat) :
    lookupMem (upsertMem types mt k m c) k =
      combineCollapsed types (lookupMem mt k) (some (m, c)) := by
  induction mt with
  | nil => simp [upsertMem, lookupMem, combineCollapsed]
  | cons e rest ih =>
    obtain ⟨k', m', c'⟩ := e
    by_cases h : k' = k
    · subst h
      simp [upsertMem, lookupMem, combineCollapsed]
    · simp [upsertMem, lookupMem, h, ih]

theorem lookupMem_upsertMem_ne (types : List GType) (mt : MemInterval)
    (k k' : RowKey) (m : MetricBytes) (c : Nat) (hne : k' ≠ k) :
    lookupMem (upsertMem types mt k m c) k' = lookupMem mt k' := by
  induction mt with
  | nil => simp [upsertMem, lookupMem, Ne.symm hne]
  | cons e rest ih =>
    obtain ⟨k₀, m₀, c₀⟩ := e
    by_cases h : k₀ = k
    · subst h
      simp [upsertMem, lookupMem, Ne.symm hne]
    · by_cases h' : k₀ = k'
      · subst h'
        simp [upsertMem, lookupMem, h]
      · simp [upsertMem, lookupMem, h, h', ih]

theorem upsertMem_keys (types : List GType) (mt : MemInterval) (k : RowKey)
    (m : MetricBytes) (c : Nat) :
    (upsertMem types mt k m c).map Prod.fst =
      if k ∈ mt.map Prod.fst then mt.map Prod.fst
      else mt.map Prod.fst ++ [k] := by
  induction mt with
  | nil => simp [upsertMem]
  | cons e rest ih =>
    obtain ⟨k₀, m₀, c₀⟩ := e
    by_cases h : k₀ = k
    · subst h
      simp [upsertMem]
    · simp only [upsertMem, if_neg h, List.map_cons, ih]
      by_cases hmem : k ∈ rest.map Prod.fst <;>
        simp [hmem, Ne.symm h]

theorem upsertMem_keys_nodup (types : List GType) (mt : MemInterval)
    (k : RowKey) (m : MetricBytes) (c : Nat)
    (h : (mt.map Prod.fst).Nodup) :
    ((upsertMem types mt k m c).map Prod.fst).Nodup := by
  rw [upsertMem_keys]
  by_cases hmem : k ∈ mt.map Prod.fst <;>
    simp [hmem, List.nodup_append, h]

theorem collapseRows_cons (types : List GType) (r : InputRow)
    (l : List InputRow) :
    collapseRows types (r :: l) =
      combineCollapsed types (some (r.metrics, r.count))
        (collapseRows types l) := by
  induction l generalizing r with
  | nil => simp [collapseRows, combineCollapsed]
  | cons r' rest ih =>
    have h1 := ih (⟨r.key, MetricBytes.add types r.metrics r'.metrics,
      r.count + r'.count⟩ : InputRow)
    have h2 := ih r'
    simp only [collapseRows, List.foldl_cons] at h1 h2 ⊢
    rw [h1, h2, ← combineCollapsed_assoc]
    rfl

theorem lookupMem_insertManyMem (types : List GType) (rows : List InputRow) :
    ∀ (mt : MemInterval) (k : RowKey),
      lookupMem (insertManyMem types mt rows) k =
        combineCollapsed types (lookupMem mt k)
          (collapseRows types (rows.filter fun r => r.key = k)) := by
  induction rows with
  | nil =>
    intro mt k
    simp [insertManyMem, collapseRows, combineCollapsed_none_right]
  | cons r rest ih =>
    intro mt k
    have : insertManyMem types mt (r :: rest) =
        insertManyMem types (upsertMem types mt r.key r.metrics r.count)
          rest := rfl
    rw [this, ih]
    by_cases h : r.key = k
    · subst h
      rw [lookupMem_upsertMem_self, combineCollapsed_assoc]
      simp [collapseRows_cons]
    · rw [lookupMem_upsertMem_ne types mt r.key k r.metrics r.count
        (Ne.symm h)]
      simp [h]

theorem insertManyMem_keys_nodup (types : List GType) (rows : List InputRow) :
    ∀ mt : MemInterval, (mt.map Prod.fst).Nodup →
      ((insertManyMem types mt rows).map Prod.fst).Nodup := by
  induction rows with
  | nil => intro mt h; exact h
  | cons r rest ih =>
    intro mt h
    exact ih _ (upsertMem_keys_nodup types mt r.key r.metrics r.count h)

/-- When every pointwise sum is representable in its column's type, the
typed wrapping sum `MetricBytes.add` is the plain pointwise sum. -/
theorem MetricBytes.add_eq_pointwise (types : List GType) (a b : MetricBytes)
    (hrange : ∀ p ∈ types.zip (a.zip b), cellInRange p.1 (p.2.1 + p.2.2)) :
    MetricBytes.add types a b = List.zipWith (· + ·) a b ∨
      types.length < min a.length b.length := by
  induction types generalizing a b with
  | nil =>
    rcases a with _ | ⟨x, a⟩ <;> rcases b with _ | ⟨y, b⟩ <;>
      simp [MetricBytes.add]
  | cons t ts ih =>
    rcases a with _ | ⟨x, a⟩ <;> rcases b with _ | ⟨y, b⟩ <;>
      simp only [MetricBytes.add, List.zipWith, List.length_nil,
        List.length_cons, Nat.lt_min] at *
    · left; trivial
    · left; trivial
    · left; trivial
    · rcases ih a b (fun p hp => hrange p (List.mem_cons_of_mem _ hp)) with
        h | h
      · left
        rw [h, wrapCell_eq_of_range t (x + y)
          (hrange (t, x, y) (List.mem_cons_self _ _))]
      · right
        omega

/-- **C1**: inserting a batch of input rows into one interval of an empty
MemTable collapses exactly the rows sharing a row key (identical timestamp
and identical dimension bytes, nil bits included): (1) no two stored rows
share a row key; (2) the single stored entry for a key holds the pointwise
typed sums of the metrics of all inputs with that key and the sum of their
counts; (3) in particular, for two colliding inputs whose metric sums stay
in range, the stored metrics are the plain pointwise sums and the count is
the sum of the two counts. -/
theorem C1_insert_collapses_rows (types : List GType) (rows : List InputRow) :
    ((insertManyMem types [] rows).map Prod.fst).Nodup ∧
    (∀ k : RowKey, lookupMem (insertManyMem types [] rows) k =
      collapseRows types (rows.filter fun r => r.key = k)) ∧
    ∀ r₁ r₂ : InputRow, r₁.key = r₂.key →
      types.length = r₁.metrics.length →
      (∀ p ∈ types.zip (r₁.metrics.zip r₂.metrics),
        cellInRange p.1 (p.2.1 + p.2.2)) →
      lookupMem (insertManyMem types [] [r₁, r₂]) r₁.key =
        some (List.zipWith (· + ·) r₁.metrics r₂.metrics,
          r₁.count + r₂.count) := by
  refine ⟨insertManyMem_keys_nodup types rows [] (by simp), ?_, ?_⟩
  · intro k
    rw [lookupMem_insertManyMem]
    simp [lookupMem, combineCollapsed]
  · intro r₁ r₂ hkey hlen hrange
    rw [lookupMem_insertManyMem]
    simp only [lookupMem, combineCollapsed]
    rw [List.filter_cons_of_pos, List.filter_cons_of_pos]
    · simp only [List.filter_nil, collapseRows, List.foldl_cons,
        List.foldl_nil]
      rcases MetricBytes.add_eq_pointwise types r₁.metrics r₂.metrics
        hrange with h | h
      · simp [combineCollapsed, h]
      · omega
    · simp [hkey]
    · simp

/-- Witness for C1 at the inputs of `TestRowsGetCollapsedUponInsertion`:
the rows `(ts 0, dim "string1", metric 1)` and `(ts 0, dim "string1",
metric 3)` (dimension id 0, `uint32` metric) collapse to metrics `[4]`,
count 2. -/
theorem C1_insert_collapses_rows_witness :
    (⟨⟨0, [some 0]⟩, [1], 1⟩ : InputRow).key =
        (⟨⟨0, [some 0]⟩, [3], 1⟩ : InputRow).key ∧
    lookupMem (insertManyMem [GType.TypeUint32] []
        [⟨⟨0, [some 0]⟩, [1], 1⟩, ⟨⟨0, [some 0]⟩, [3], 1⟩])
        (⟨0, [some 0]⟩ : RowKey) =
      some ([4], 2) :=
  ⟨rfl, (C1_insert_collapses_rows [GType.TypeUint32]
      [⟨⟨0, [some 0]⟩, [1], 1⟩, ⟨⟨0, [some 0]⟩, [3], 1⟩]).2.2
    ⟨⟨0, [some 0]⟩, [1], 1⟩ ⟨⟨0, [some 0]⟩, [3], 1⟩ rfl rfl (by decide)⟩

/-- **C2**: the nil policy of the compiled dimension filters.  For a row
whose filtered nullable dimension cell is nil (`none`): `=` against a
non-nil user value (numeric or string) is `false`; `≠` against a non-nil
user value is `true`; each ordering comparison is `false`; and an `in`
filter accepts the row exactly when the user's value list contains nil. -/
theorem C2_dimension_filter_nil_policy (t : GType) (value : ℚ) (id : Nat)
    (userValues : List (Option ℚ)) :
    makeDimensionFilterFuncSimpleNumeric t .FilterEqual value none = false ∧
    makeDimensionFilterFuncSimpleString .FilterEqual id none = false ∧
    makeDimensionFilterFuncSimpleNumeric t .FilterNotEqual value none = true ∧
    makeDimensionFilterFuncSimpleString .FilterNotEqual id none = true ∧
    makeDimensionFilterFuncSimpleNumeric t .FilterLessThan value none
      = false ∧
    makeDimensionFilterFuncSimpleNumeric t .FilterLessThanOrEqual value none
      = false ∧
    makeDimensionFilterFuncSimpleNumeric t .FilterGreaterThan value none
      = false ∧
    makeDimensionFilterFuncSimpleNumeric t .FilterGreaterThenOrEqual value
      none = false ∧
    makeDimensionFilterFuncSimpleString .FilterLessThan id none = false ∧
    makeDimensionFilterFuncSimpleString .FilterLessThanOrEqual id none
      = false ∧
    makeDimensionFilterFuncSimpleString .FilterGreaterThan id none = false ∧
    makeDimensionFilterFuncSimpleString .FilterGreaterThenOrEqual id none
      = false ∧
    dimFilterInFromList t userValues none = userValues.contains none :=
  ⟨rfl, rfl, rfl, rfl, rfl, rfl, rfl, rfl, rfl, rfl, rfl, rfl, rfl⟩

/-- **C10**: every numeric-column filter converts its user-supplied
`float64` value to the column type once, by truncation toward zero, and
compares entirely in that type: two user values with equal truncations
compile to the same predicate for every operator, for metric columns,
native (non-string) dimension columns, and `in` filters alike. -/
theorem C10_numeric_filter_truncates_value (t : GType) (f : SimpleFilterType)
    (q q' : ℚ) (hq : goTrunc q = goTrunc q') :
    makeMetricFilterFuncSimpleGen t f q =
      makeMetricFilterFuncSimpleGen t f q' ∧
    makeDimensionFilterFuncSimpleNumeric t f q =
      makeDimensionFilterFuncSimpleNumeric t f q' ∧
    ∀ floats floats' : List ℚ, floats.map goTrunc = floats'.map goTrunc →
      makeMetricFilterFuncInGen t floats =
        makeMetricFilterFuncInGen t floats' := by
  refine ⟨?_, ?_, ?_⟩
  · funext x
    simp [makeMetricFilterFuncSimpleGen, convertValue, hq]
  · funext x
    simp [makeDimensionFilterFuncSimpleNumeric, convertValue, hq]
  · intro floats floats' hf
    funext x
    simp only [makeMetricFilterFuncInGen]
    have : floats.map (convertValue t) = floats'.map (convertValue t) := hf
    rw [this]

/-- Witness for C10: filtering a `uint8` column with the value `2.7`
accepts exactly the rows that filtering with `2` accepts (both truncate to
the typed value `2`). -/
theorem C10_numeric_filter_truncates_value_witness :
    goTrunc (mkRat 27 10) = goTrunc (2 : ℚ) ∧
    makeMetricFilterFuncSimpleGen .TypeUint8 .FilterEqual (mkRat 27 10) =
      makeMetricFilterFuncSimpleGen .TypeUint8 .FilterEqual (2 : ℚ) :=
  ⟨by decide,
    (C10_numeric_filter_truncates_value .TypeUint8 .FilterEqual
      (mkRat 27 10) 2 (by decide)).1⟩

/-! ## C5: what collapsing actually does to an overflowing u8 metric -/

/-- **C5 counterexample**: collapsing two rows whose `uint8` metrics are
200 and 100 (sum 300, beyond the u8 range) does not produce any error —
`MetricBytes.add` has no error outcome and the MemTable upsert always
stores — and the stored metric is the wrapped value 44 = 300 mod 256, not
300.  This contradicts the claim that such an insert returns a `TypeRange`
error rather than storing a wrapped value. -/
theorem C5_u8_collapse_overflow_counterexample :
    MetricBytes.add [GType.TypeUint8] [200] [100] = [44] ∧
    lookupMem
        (insertManyMem [GType.TypeUint8] []
          [⟨⟨0, [some 0]⟩, [200], 1⟩, ⟨⟨0, [some 0]⟩, [100], 1⟩])
        ⟨0, [some 0]⟩ =
      some ([44], 2) := by
  refine ⟨?_, ?_⟩ <;> decide

/-- **C5 amended**: collapsing sums each metric in the column's machine
type with Go's native wrapping addition and cannot fail; for any two
in-range `uint8` metrics whose sum exceeds the u8 range, the collapse
succeeds and stores `a + b - 256`, which differs from the true sum. -/
theorem C5_u8_collapse_wraps (a b : Int)
    (ha : cellInRange .TypeUint8 a) (hb : cellInRange .TypeUint8 b)
    (hover : 256 ≤ a + b) :
    MetricBytes.add [GType.TypeUint8] [a] [b] = [a + b - 256] ∧
    a + b - 256 ≠ a + b := by
  simp only [cellInRange, GType.width, GType.isSigned] at ha hb
  constructor
  · simp only [MetricBytes.add, wrapCell, GType.isSigned, GType.width]
    norm_num at ha hb ⊢
    omega
  · omega

/-- Witness for the amended C5 at metrics 200 and 100: the stored value is
44. -/
theorem C5_u8_collapse_wraps_witness :
    (cellInRange .TypeUint8 200 ∧ cellInRange .TypeUint8 100 ∧
      (256 : Int) ≤ 200 + 100) ∧
    MetricBytes.add [GType.TypeUint8] [200] [100] = [(44 : Int)] :=
  ⟨⟨by decide, by decide, by norm_num⟩,
    (C5_u8_collapse_wraps 200 100 (by decide) (by decide)
      (by norm_num)).1.trans (by norm_num)⟩

/-! ## C3: fixed-retention drop on insert -/

/-- Modelled from the spec: the insert pipeline's fixed-retention check
(the insert pipeline is not under `src/`).  §3: "A row whose timestamp
falls outside `[now - retention, +∞)` when fixed-retention is enabled is
silently dropped on insert"; §8: timestamps at exactly `now - retention`
are retained, strictly older are dropped.  The row is kept iff retention
is off or `now - retention ≤ ts`. -/
def retainRow (fixedRetention : Bool) (now retention ts : Int) : Bool :=
  !fixedRetention || decide (now - retention ≤ ts)

/-- Modelled from the spec: dropped rows simply do not appear; the rest of
the batch is applied in order. -/
def applyRetention (fixedRetention : Bool) (now retention : Int)
    (rows : List InputRow) : List InputRow :=
  rows.filter fun r => retainRow fixedRetention now retention (r.key.ts : Int)

/-- Modelled from the spec: §4.6 — each surviving row is upserted into its
interval of the MemTable; out-of-retention rows are silently skipped and
the insert itself succeeds. -/
def insertDroppingOutOfRetention (types : List GType)
    (fixedRetention : Bool) (now retention : Int) (mt : MemInterval)
    (rows : List InputRow) : MemInterval :=
  insertManyMem types mt (applyRetention fixedRetention now retention rows)

/-- **C3**: with fixed retention enabled, a row whose timestamp is exactly
`now - retention` is retained, a row strictly older is silently dropped,
and the insert applies exactly the retained rows of the batch, in order. -/
theorem C3_retention_boundary (types : List GType) (now retention : Int)
    (mt : MemInterval) (rows : List InputRow) (r : InputRow)
    (hr : r ∈ rows) :
    ((r.key.ts : Int) = now - retention →
      r ∈ applyRetention true now retention rows) ∧
    ((r.key.ts : Int) < now - retention →
      r ∉ applyRetention true now retention rows) ∧
    insertDroppingOutOfRetention types true now retention mt rows =
      insertManyMem types mt
        (rows.filter fun r' => now - retention ≤ (r'.key.ts : Int)) := by
  refine ⟨?_, ?_, ?_⟩
  · intro hts
    simp only [applyRetention, List.mem_filter, retainRow]
    exact ⟨hr, by simp [hts]⟩
  · intro hts hmem
    simp only [applyRetention, List.mem_filter, retainRow] at hmem
    have := hmem.2
    simp at this
    omega
  · simp [insertDroppingOutOfRetention, applyRetention, retainRow]

/-- Witness for C3 mirroring `TestInsertDropsRowsOutOfRetention`
(retention 24h = 86400s, `now` = 100·86400): the row at `now - 79200`
(22h old) is retained, and a row at exactly `now - 86400` would be too,
while the row at `now - 93600` (26h old) is dropped. -/
theorem C3_retention_boundary_witness :
    (⟨⟨8553600, []⟩, [1], 1⟩ : InputRow) ∈
        applyRetention true 8640000 86400
          [⟨⟨8560800, []⟩, [1], 1⟩, ⟨⟨8553600, []⟩, [1], 1⟩,
            ⟨⟨8546400, []⟩, [1], 1⟩] ∧
    (⟨⟨8546400, []⟩, [1], 1⟩ : InputRow) ∉
        applyRetention true 8640000 86400
          [⟨⟨8560800, []⟩, [1], 1⟩, ⟨⟨8553600, []⟩, [1], 1⟩,
            ⟨⟨8546400, []⟩, [1], 1⟩] :=
  ⟨(C3_retention_boundary [] 8640000 86400 []
      [⟨⟨8560800, []⟩, [1], 1⟩, ⟨⟨8553600, []⟩, [1], 1⟩,
        ⟨⟨8546400, []⟩, [1], 1⟩]
      ⟨⟨8553600, []⟩, [1], 1⟩ (by decide)).1 (by decide),
    (C3_retention_boundary [] 8640000 86400 []
      [⟨⟨8560800, []⟩, [1], 1⟩, ⟨⟨8553600, []⟩, [1], 1⟩,
        ⟨⟨8546400, []⟩, [1], 1⟩]
      ⟨⟨8546400, []⟩, [1], 1⟩ (by decide)).2.1 (by decide)⟩

/-! ## C4: dimension-table interning and id-width overflow -/

/-- The error kinds relevant here (§7): `TypeRange` covers id-width
overflow and out-of-range numeric values. -/
inductive GumshoeError where
  | TypeRange
  deriving DecidableEq, Repr

/-- Modelled from the spec: dimension-table interning (§4.3; the dimension
table code is not under `src/`).  The table is the ordered vector of
values; the id is the index; a new value is appended if the id space of
the column's width (ids `0 … 2^width - 1`) is not exhausted, otherwise the
intern fails with `TypeRange`. -/
def intern (width : Nat) (table : List String) (v : String) :
    Except GumshoeError (List String × Nat) :=
  if v ∈ table then .ok (table, table.indexOf v)
  else if table.length < 2 ^ width then .ok (table ++ [v], table.length)
  else .error .TypeRange

/-- Modelled from the spec: interning every string dimension value of a
batch in input order, threading the growing table; the first overflow
fails the batch, with any already-interned new ids left in the table
("rolling back any new interns is not required"). -/
def internBatch (width : Nat) (table : List String) :
    List String → List String × Except GumshoeError (List Nat)
  | [] => (table, .ok [])
  | v :: vs =>
    match intern width table v with
    | .error e => (table, .error e)
    | .ok (t', id) =>
      match internBatch width t' vs with
      | (tf, .error e) => (tf, .error e)
      | (tf, .ok ids) => (tf, .ok (id :: ids))

/-- A DB restricted to what C4 needs: one string-backed dimension column's
table and the visible stored rows. -/
structure DimDB where
  table : List String
  rows : MemInterval

/-- A raw input row of the C4 model: timestamp, the string value of the
single string-backed dimension, metrics, count. -/
structure RawRow where
  ts : Nat
  dim : String
  metrics : MetricBytes
  count : Nat

/-- Modelled from the spec: §4.6 batch insert — intern all dimensions
first (validation), then commit the laid-out rows to the MemTable; a
failing batch leaves the visible rows untouched (newly interned ids may
remain but unreferenced). -/
def insertBatch (width : Nat) (types : List GType) (db : DimDB)
    (batch : List RawRow) : DimDB × Option GumshoeError :=
  match internBatch width db.table (batch.map RawRow.dim) with
  | (t', .error e) => (⟨t', db.rows⟩, some e)
  | (t', .ok ids) =>
    (⟨t', insertManyMem types db.rows
      (List.zipWith (fun r id => ⟨⟨r.ts, [some (id : Int)]⟩, r.metrics,
        r.count⟩) batch ids)⟩, none)

theorem intern_ok_facts (width : Nat) (table t' : List String) (v : String)
    (id : Nat) (h : intern width table v = .ok (t', id))
    (hnodup : table.Nodup) :
    t'.Nodup ∧ v ∈ t' ∧ (∀ w ∈ table, w ∈ t') ∧
      t'.length ≤ max table.length (2 ^ width) := by
  unfold intern at h
  by_cases hv : v ∈ table
  · simp only [if_pos hv, Except.ok.injEq] at h
    obtain ⟨rfl, rfl⟩ := h
    exact ⟨hnodup, hv, fun w hw => hw, le_max_left _ _⟩
  · simp only [if_neg hv] at h
    by_cases hlen : table.length < 2 ^ width
    · simp only [if_pos hlen, Except.ok.injEq] at h
      obtain ⟨rfl, rfl⟩ := h
      refine ⟨?_, ?_, ?_, ?_⟩
      · simp [List.nodup_append, hnodup, hv]
      · simp
      · intro w hw; simp [hw]
      · simp only [List.length_append, List.length_cons, List.length_nil]
        omega
    · simp [if_neg hlen] at h

theorem internBatch_table_mono (width : Nat) (vs : List String) :
    ∀ (table t' : List String) (ids : List Nat),
      internBatch width table vs = (t', .ok ids) →
      ∀ w ∈ table, w ∈ t' := by
  induction vs with
  | nil =>
    intro table t' ids h
    simp only [internBatch, Prod.mk.injEq] at h
    obtain ⟨rfl, -⟩ := h
    exact fun w hw => hw
  | cons v rest ih =>
    intro table t' ids h
    simp only [internBatch] at h
    rcases hi : intern width table v with e | ⟨t₁, id⟩
    · rw [hi] at h; simp at h
    · rw [hi] at h
      dsimp only at h
      rcases hb : internBatch width t₁ rest with ⟨tf, r⟩
      rcases r with e | ids'
      · rw [hb] at h; simp at h
      · rw [hb] at h
        simp only [Prod.mk.injEq, Except.ok.injEq] at h
        obtain ⟨rfl, -⟩ := h
        intro w hw
        refine ih t₁ _ ids' hb w ?_
        unfold intern at hi
        by_cases hv : v ∈ table
        · simp only [if_pos hv, Except.ok.injEq] at hi
          obtain ⟨rfl, -⟩ := hi
          exact hw
        · simp only [if_neg hv] at hi
          by_cases hlen : table.length < 2 ^ width
          · simp only [if_pos hlen, Except.ok.injEq] at hi
            obtain ⟨rfl, -⟩ := hi
            simp [hw]
          · simp [if_neg hlen] at hi

theorem internBatch_ok_facts (width : Nat) (vs : List String) :
    ∀ (table t' : List String) (ids : List Nat),
      internBatch width table vs = (t', .ok ids) → table.Nodup →
      t'.Nodup ∧ (∀ v ∈ vs, v ∈ t') ∧
        t'.length ≤ max table.length (2 ^ width) := by
  induction vs with
  | nil =>
    intro table t' ids h hnodup
    simp only [internBatch, Prod.mk.injEq] at h
    obtain ⟨rfl, -⟩ := h
    exact ⟨hnodup, by simp, le_max_left _ _⟩
  | cons v rest ih =>
    intro table t' ids h hnodup
    simp only [internBatch] at h
    rcases hi : intern width table v with e | ⟨t₁, id⟩
    · rw [hi] at h; simp at h
    · rw [hi] at h
      dsimp only at h
      rcases hb : internBatch width t₁ rest with ⟨tf, r⟩
      rcases r with e | ids'
      · rw [hb] at h; simp at h
      · rw [hb] at h
        simp only [Prod.mk.injEq, Except.ok.injEq] at h
        obtain ⟨rfl, -⟩ := h
        obtain ⟨h1nodup, hvmem, h1sub, h1len⟩ :=
          intern_ok_facts width table t₁ v id hi hnodup
        obtain ⟨hfnodup, hfmem, hflen⟩ := ih t₁ _ ids' hb h1nodup
        refine ⟨hfnodup, ?_, ?_⟩
        · intro w hw
          rcases List.mem_cons.mp hw with rfl | hw
          · -- v itself survives: internBatch only extends the table
            exact internBatch_table_mono width rest t₁ _ ids' hb w hvmem
          · exact hfmem w hw
        · omega

/-- **C4**: a batch that would need more distinct string values in a
string-backed dimension than its id width allows (more than `2^width`,
e.g. a 257th distinct value for `string:u8`) makes the insert fail with
`TypeRange`, and the failure is atomic for the stored rows: no row of the
batch becomes visible and the visible rows are exactly the old ones
(newly interned ids may remain in the dimension table, unreferenced). -/
theorem C4_id_overflow_rejected_atomically (width : Nat)
    (types : List GType) (db : DimDB) (batch : List RawRow)
    (hnodup : db.table.Nodup) (hlen : db.table.length ≤ 2 ^ width)
    (hover : 2 ^ width < ((batch.map RawRow.dim).dedup).length) :
    (insertBatch width types db batch).2 = some .TypeRange ∧
    (insertBatch width types db batch).1.rows = db.rows := by
  unfold insertBatch
  rcases hb : internBatch width db.table (batch.map RawRow.dim) with ⟨t', r⟩
  rcases r with e | ids
  · cases e
    exact ⟨rfl, rfl⟩
  · exfalso
    obtain ⟨hnd, hmem, hlen'⟩ :=
      internBatch_ok_facts width (batch.map RawRow.dim) db.table t' ids hb
        hnodup
    have hsub : (batch.map RawRow.dim).dedup ⊆ t' := fun v hv =>
      hmem v (List.mem_dedup.mp hv)
    have hle : ((batch.map RawRow.dim).dedup).length ≤ t'.length :=
      (List.Nodup.subperm (List.nodup_dedup _) hsub).length_le
    omega

/-- Witness for C4: a batch of three distinct values into a width-1
dimension column (id space `{0, 1}`) fails with `TypeRange` and leaves the
stored rows empty. -/
theorem C4_id_overflow_rejected_atomically_witness :
    (([] : List String).Nodup ∧ ([] : List String).length ≤ 2 ^ 1 ∧
      2 ^ 1 < (([⟨0, "a", [1], 1⟩, ⟨0, "b", [1], 1⟩,
        ⟨0, "c", [1], 1⟩] : List RawRow).map RawRow.dim).dedup.length) ∧
    (insertBatch 1 [GType.TypeUint32] ⟨[], []⟩
      [⟨0, "a", [1], 1⟩, ⟨0, "b", [1], 1⟩, ⟨0, "c", [1], 1⟩]).2 =
        some .TypeRange ∧
    (insertBatch 1 [GType.TypeUint32] ⟨[], []⟩
      [⟨0, "a", [1], 1⟩, ⟨0, "b", [1], 1⟩, ⟨0, "c", [1], 1⟩]).1.rows = [] :=
  ⟨⟨by decide, by decide, by decide⟩,
    C4_id_overflow_rejected_atomically 1 [GType.TypeUint32] ⟨[], []⟩
      [⟨0, "a", [1], 1⟩, ⟨0, "b", [1], 1⟩, ⟨0, "c", [1], 1⟩]
      (by decide) (by decide) (by decide)⟩

/-! ## C8: single-result queries and unresolvable string filters -/

/-- A stored row as the scan loop sees it: row key, metric cells, count. -/
abbrev StoredRow := RowKey × MetricBytes × Nat

/-- Modelled from the spec: the single-result (no grouping) query executor
(§4.9; the executor is not under `src/`).  One accumulator row starts at
each aggregate's type zero with `rowCount` 0; every stored row passing the
compiled predicate has each requested metric summed in (`makeSumFuncGen`'s
typed `+=`, i.e. the column's wrapping sum) and its count added to
`rowCount`.  Exactly one result row is produced, matched or not. -/
def invokeQuerySingle (types : List GType) (pred : StoredRow → Bool)
    (rows : List StoredRow) : MetricBytes × Nat :=
  rows.foldl
    (fun acc r =>
      if pred r then (MetricBytes.add types acc.1 r.2.1, acc.2 + r.2.2)
      else acc)
    (zeroMetrics types, 0)

/-- Modelled from the spec: filter value resolution for a string dimension
(§4.8, not under `src/`): the user's string is looked up in the dimension
table; a resolvable value compiles to the `=` filter on its id
(`makeDimensionFilterFuncSimpleGen`), an unresolvable one short-circuits
the predicate to always-false.  `dimIdx` selects the filtered dimension
column's cell. -/
def resolveFilterEqString (table : List String) (v : String) (dimIdx : Nat) :
    StoredRow → Bool :=
  if v ∈ table then
    fun r => makeDimensionFilterFuncSimpleString .FilterEqual
      (table.indexOf v) (r.1.dims.getD dimIdx none)
  else
    fun _ => false

theorem MetricBytes.length_add (types : List GType) (a b : MetricBytes)
    (ha : a.length = types.length) (hb : b.length = types.length) :
    (MetricBytes.add types a b).length = types.length := by
  induction types generalizing a b with
  | nil =>
    rcases a with _ | ⟨x, a⟩ <;> rcases b with _ | ⟨y, b⟩ <;>
      simp_all [MetricBytes.add]
  | cons t ts ih =>
    rcases a with _ | ⟨x, a⟩ <;> rcases b with _ | ⟨y, b⟩ <;>
      simp_all [MetricBytes.add]

theorem invokeQuerySingle_no_match (types : List GType)
    (p : StoredRow → Bool) (rows : List StoredRow)
    (hp : ∀ r ∈ rows, p r = false) :
    invokeQuerySingle types p rows = (zeroMetrics types, 0) := by
  unfold invokeQuerySingle
  induction rows with
  | nil => rfl
  | cons r rest ih =>
    rw [List.foldl_cons, hp r (List.mem_cons_self _ _)]
    simp only [Bool.false_eq_true, if_false]
    exact ih fun r' hr' => hp r' (List.mem_cons_of_mem _ hr')

theorem invokeQuerySingle_length (types : List GType)
    (p : StoredRow → Bool) (rows : List StoredRow)
    (h : ∀ r ∈ rows, r.2.1.length = types.length) :
    (invokeQuerySingle types p rows).1.length = types.length := by
  unfold invokeQuerySingle
  suffices hgen : ∀ acc : MetricBytes × Nat, acc.1.length = types.length →
      (rows.foldl
        (fun acc r =>
          if p r then (MetricBytes.add types acc.1 r.2.1, acc.2 + r.2.2)
          else acc) acc).1.length = types.length by
    exact hgen (zeroMetrics types, 0) (by simp [zeroMetrics])
  induction rows with
  | nil => intro acc hacc; exact hacc
  | cons r rest ih =>
    intro acc hacc
    rw [List.foldl_cons]
    rcases hpr : p r with _ | _
    · simp only [Bool.false_eq_true, if_false]
      exact ih (fun r' hr' => h r' (List.mem_cons_of_mem _ hr')) acc hacc
    · simp only [if_true]
      exact ih (fun r' hr' => h r' (List.mem_cons_of_mem _ hr')) _
        (MetricBytes.length_add types acc.1 r.2.1 hacc
          (h r (List.mem_cons_self _ _)))

/-- **C8**: a query with no groupings produces exactly one result row: one
slot per requested aggregate plus `rowCount`; when the predicate matches
no stored row — in particular when an `=` filter names a string absent
from the dimension table, which short-circuits the predicate to
always-false — every aggregate slot holds its type's zero and `rowCount`
is 0. -/
theorem C8_single_result_zero_matches (types : List GType)
    (pred : StoredRow → Bool) (rows : List StoredRow)
    (table : List String) (v : String) (dimIdx : Nat)
    (hrowlen : ∀ r ∈ rows, r.2.1.length = types.length)
    (hnomatch : ∀ r ∈ rows, pred r = false) (hv : v ∉ table) :
    (invokeQuerySingle types pred rows).1.length = types.length ∧
    invokeQuerySingle types pred rows = (zeroMetrics types, 0) ∧
    invokeQuerySingle types (resolveFilterEqString table v dimIdx) rows =
      (zeroMetrics types, 0) :=
  ⟨invokeQuerySingle_length types pred rows hrowlen,
    invokeQuerySingle_no_match types pred rows hnomatch,
    invokeQuerySingle_no_match types _ rows fun r hr => by
      simp [resolveFilterEqString, hv]⟩

/-- Witness for C8 mirroring `TestInvokeQueryFiltersRowsUsingEqualsFilter`:
over the stored rows of the filter-test fixture (dimension ids 0 and 1 for
"string1"/"string2", `uint32` metrics 1 and 2), an `=` filter on the
absent string "non-existent" yields the single row `metric1 = 0`,
`rowCount = 0`. -/
theorem C8_single_result_zero_matches_witness :
    ("non-existent" ∉ ["string1", "string2"]) ∧
    invokeQuerySingle [GType.TypeUint32]
        (resolveFilterEqString ["string1", "string2"] "non-existent" 0)
        [(⟨0, [some 0]⟩, [1], 1), (⟨0, [some 1]⟩, [2], 1)] =
      (zeroMetrics [GType.TypeUint32], 0) :=
  ⟨by decide,
    (C8_single_result_zero_matches [GType.TypeUint32] (fun _ => false)
      [(⟨0, [some 0]⟩, [1], 1), (⟨0, [some 1]⟩, [2], 1)]
      ["string1", "string2"] "non-existent" 0
      (by decide) (by decide) (by decide)).2.2⟩

/-! ## C9: time truncation in grouping keys -/

/-- The time-truncation enum of the query surface
(`TimeTruncationNone` … as in the tests). -/
inductive TimeTruncation where
  | TimeTruncationNone
  | TimeTruncationMinute
  | TimeTruncationHour
  | TimeTruncationDay
  deriving DecidableEq, Repr

/-- The truncation modulus K: 60 for minute, 3600 for hour, 86400 for day
(1 leaves the value unchanged). -/
def truncationK : TimeTruncation → Nat
  | .TimeTruncationNone => 1
  | .TimeTruncationMinute => 60
  | .TimeTruncationHour => 3600
  | .TimeTruncationDay => 86400

/-- Modelled from the spec: the grouping key extractor's integer time
truncation `t - (t mod K)` (§4.8; the query compiler is not under
`src/`). -/
def truncateTime (tt : TimeTruncation) (t : Nat) : Nat :=
  t - t % truncationK tt

/-- One group accumulator upsert of the executor: same collapse shape as
the MemTable's, keyed by the grouping key. -/
def upsertGroup (types : List GType) :
    List (Nat × MetricBytes × Nat) → Nat → MetricBytes → Nat →
    List (Nat × MetricBytes × Nat)
  | [], k, m, c => [(k, m, c)]
  | (k', m', c') :: rest, k, m, c =>
    if k' = k then (k', MetricBytes.add types m' m, c' + c) :: rest
    else (k', m', c') :: upsertGroup types rest k m c

/-- Modelled from the spec: the grouped scan (§4.9) — each stored row
passing the (here absent) filter contributes its metrics and count to the
accumulator of its time-truncated grouping key. -/
def groupByTime (types : List GType) (tt : TimeTruncation)
    (rows : List StoredRow) : List (Nat × MetricBytes × Nat) :=
  rows.foldl
    (fun acc r => upsertGroup types acc (truncateTime tt r.1.ts) r.2.1
      r.2.2)
    []

/-- **C9**: the grouping key of a row with time value `t` under truncation
minute/hour/day is `t - (t mod K)` for K = 60/3600/86400, which is
`⌊t/K⌋·K`; two rows in different hour buckets but the same day share the
day-truncated key, and the grouped scan merges them into one output row
whose metrics and counts are summed. -/
theorem C9_time_truncation_grouping (t t₁ t₂ : Nat) (types : List GType)
    (r₁ r₂ : StoredRow) (hday : t₁ / 86400 = t₂ / 86400)
    (hr : r₁.1.ts / 86400 = r₂.1.ts / 86400) :
    (truncateTime .TimeTruncationMinute t = t - t % 60 ∧
      truncateTime .TimeTruncationHour t = t - t % 3600 ∧
      truncateTime .TimeTruncationDay t = t - t % 86400 ∧
      truncateTime .TimeTruncationDay t = t / 86400 * 86400) ∧
    truncateTime .TimeTruncationDay t₁ = truncateTime .TimeTruncationDay t₂ ∧
    groupByTime types .TimeTruncationDay [r₁, r₂] =
      [(truncateTime .TimeTruncationDay r₁.1.ts,
        MetricBytes.add types r₁.2.1 r₂.2.1, r₁.2.2 + r₂.2.2)] := by
  have key : ∀ a b : Nat, a / 86400 = b / 86400 →
      truncateTime .TimeTruncationDay a = truncateTime .TimeTruncationDay b := by
    intro a b hab
    simp only [truncateTime, truncationK]
    omega
  refine ⟨⟨rfl, rfl, rfl, ?_⟩, key t₁ t₂ hday, ?_⟩
  · simp only [truncateTime, truncationK]
    omega
  · simp [groupByTime, upsertGroup, key r₁.1.ts r₂.1.ts hr]

/-- Witness for C9 mirroring `TestGroupingWithATimeTransformFunctionWorks`:
the rows at timestamps 172800 (day 2, hour 0) and 172900 (day 2, later in
the day) with `uint32` metrics 10 and 12 fall in the same day bucket
172800 and merge into one output row with metric 22 and rowCount 2. -/
theorem C9_time_truncation_grouping_witness :
    ((172800 : Nat) / 86400 = 172900 / 86400) ∧
    groupByTime [GType.TypeUint32] .TimeTruncationDay
        [(⟨172800, []⟩, [10], 1), (⟨172900, []⟩, [12], 1)] =
      [(172800, [22], 2)] :=
  ⟨by decide,
    by
      have h := (C9_time_truncation_grouping 0 172800 172900
        [GType.TypeUint32] (⟨172800, []⟩, [10], 1) (⟨172900, []⟩, [12], 1)
        (by decide) (by decide)).2.2
      rw [h]
      decide⟩

/-! ## C7: generations and old segment files -/

/-- A segment file on disk, identified by the fields of its name
`interval.<t0>.generation<NNNN>.segment<MMMM>.dat`. -/
structure SegFile where
  t0 : Nat
  generation : Nat
  segment : Nat
  deriving DecidableEq, Repr

/-- Left-pad a number to four digits, as in the segment file names. -/
def pad4 (n : Nat) : String :=
  let s := toString n
  String.mk (List.replicate (4 - s.length) '0') ++ s

/-- The file name of a segment file. -/
def segFileName (f : SegFile) : String :=
  "interval." ++ toString f.t0 ++ ".generation" ++ pad4 f.generation ++
    ".segment" ++ pad4 f.segment ++ ".dat"

/-- Per-interval metadata: current generation and segment count. -/
structure IntervalMeta where
  t0 : Nat
  generation : Nat
  numSegments : Nat
  deriving DecidableEq, Repr

/-- The segment files belonging to an interval's current generation. -/
def segFilesOf (iv : IntervalMeta) : List SegFile :=
  (List.range iv.numSegments).map fun i => ⟨iv.t0, iv.generation, i⟩

/-- Modelled from the spec: one interval's segment rewrite during flush
(§4.7, the flush code is not under `src/`): the merged rows are written as
segment files of generation `generation + 1`; once the StaticTable pointer
swap completes, the superseded generation's files are unlinked.  Returns
the new interval metadata and the disk contents after the swap. -/
def rewriteInterval (disk : List SegFile) (iv : IntervalMeta)
    (newNumSegments : Nat) : IntervalMeta × List SegFile :=
  let ivNew : IntervalMeta := ⟨iv.t0, iv.generation + 1, newNumSegments⟩
  let written := disk ++ segFilesOf ivNew
  (ivNew,
    written.filter fun f =>
      !(f.t0 = iv.t0 && f.generation = iv.generation))

/-- **C7**: a rewrite of an interval's on-disk segments increases its
generation by exactly 1, and if before the rewrite every on-disk file of
that interval belonged to its current generation, then after the swap
every on-disk file of that interval has the new generation — all
older-generation files have been unlinked — and is one of the newly
written files. -/
theorem C7_generation_swap (disk : List SegFile) (iv : IntervalMeta)
    (n : Nat)
    (hbefore : ∀ f ∈ disk, f.t0 = iv.t0 → f.generation = iv.generation) :
    (rewriteInterval disk iv n).1.generation = iv.generation + 1 ∧
    ∀ f ∈ (rewriteInterval disk iv n).2, f.t0 = iv.t0 →
      f.generation = iv.generation + 1 ∧
        f ∈ segFilesOf (rewriteInterval disk iv n).1 := by
  refine ⟨rfl, ?_⟩
  intro f hf ht0
  simp only [rewriteInterval, List.filter_append, List.mem_append,
    List.mem_filter] at hf
  rcases hf with ⟨hdisk, hpred⟩ | ⟨hnew, -⟩
  · exfalso
    have := hbefore f hdisk ht0
    simp [ht0, this] at hpred
  · simp only [segFilesOf, List.mem_map, List.mem_range] at hnew
    obtain ⟨i, hi, rfl⟩ := hnew
    refine ⟨rfl, ?_⟩
    simp only [rewriteInterval, segFilesOf, List.mem_map, List.mem_range]
    exact ⟨i, hi, rfl⟩

/-- Witness for C7 mirroring `TestOldIntervalsAreDeleted`: with
`interval.0.generation0000.segment0000.dat` on disk, the rewrite produces
generation 1, the old file is gone, and
`interval.0.generation0001.segment0000.dat` exists. -/
theorem C7_generation_swap_witness :
    (∀ f ∈ [(⟨0, 0, 0⟩ : SegFile)], f.t0 = 0 → f.generation = 0) ∧
    (rewriteInterval [⟨0, 0, 0⟩] ⟨0, 0, 1⟩ 1).1.generation = 1 ∧
    (rewriteInterval [⟨0, 0, 0⟩] ⟨0, 0, 1⟩ 1).2 = [⟨0, 1, 0⟩] ∧
    segFileName ⟨0, 0, 0⟩ = "interval.0.generation0000.segment0000.dat" ∧
    segFileName ⟨0, 1, 0⟩ = "interval.0.generation0001.segment0000.dat" :=
  ⟨by decide,
    (C7_generation_swap [⟨0, 0, 0⟩] ⟨0, 0, 1⟩ 1 (by decide)).1,
    by decide, by decide, by decide⟩

/-! ## C6: flush, persistence and reopen

The flush/persistence code is not under `src/`; the layout below is
modelled from the spec: packed rows of fixed width W — nil bitmap bytes,
then the `uint32` timestamp, dimension cells and metric cells, all
little-endian (§3 "Row layout", §6 "On-disk layout") — concatenated into
segment files with a parallel `.counts` file of `uint32` counts, and row
counts recorded in the metadata used at load time. -/

/-- `n` bytes of `x`, little-endian. -/
def bytesLE : Nat → Nat → List Nat
  | 0, _ => []
  | n + 1, x => x % 256 :: bytesLE n (x / 256)

/-- Read back a little-endian byte list. -/
def unbytesLE : List Nat → Nat
  | [] => 0
  | b :: bs => b + 256 * unbytesLE bs

theorem length_bytesLE (n x : Nat) : (bytesLE n x).length = n := by
  induction n generalizing x with
  | zero => rfl
  | succ n ih => simp [bytesLE, ih]

theorem unbytesLE_bytesLE (n x : Nat) (h : x < 256 ^ n) :
    unbytesLE (bytesLE n x) = x := by
  induction n generalizing x with
  | zero =>
    simp only [Nat.pow_zero, Nat.lt_one_iff] at h
    simp [h, bytesLE, unbytesLE]
  | succ n ih =>
    simp only [bytesLE, unbytesLE]
    rw [ih (x / 256) (by
      rw [Nat.pow_succ] at h
      exact Nat.div_lt_of_lt_mul (by omega))]
    omega

/-- The unsigned byte representative of a cell value (two's complement for
signed types). -/
def cellToNat (t : GType) (x : Int) : Nat :=
  (x % 2 ^ t.width).toNat

/-- Decode the unsigned byte representative back into a cell value. -/
def cellFromNat (t : GType) (n : Nat) : Int :=
  if t.isSigned && decide (2 ^ (t.width - 1) ≤ n) then
    (n : Int) - 2 ^ t.width
  else n

theorem cellFromNat_cellToNat (t : GType) (x : Int) (h : cellInRange t x) :
    cellFromNat t (cellToNat t x) = x := by
  unfold cellFromNat cellToNat cellInRange at *
  rcases t <;>
    simp only [GType.isSigned, GType.width, Bool.true_and, Bool.false_and,
      Bool.false_eq_true, eq_self_iff_true, if_true, if_false,
      decide_eq_true_eq] at h ⊢ <;>
    (try split_ifs with hc) <;> omega

theorem cellToNat_lt (t : GType) (x : Int) :
    cellToNat t x < 256 ^ (t.width / 8) := by
  unfold cellToNat
  rcases t <;> simp only [GType.width] <;> omega

/-- The nil bitmap of the dimension cells as a little-endian bit integer:
bit `i` is set iff dimension `i` is nil.  Stored in `⌈d/8⌉` bytes this is
exactly the spec's bitmap layout. -/
def bitmapNat : List (Option Int) → Nat
  | [] => 0
  | d :: ds => (if d.isNone then 1 else 0) + 2 * bitmapNat ds

theorem bitmapNat_lt (ds : List (Option Int)) :
    bitmapNat ds < 2 ^ ds.length := by
  induction ds with
  | nil => simp [bitmapNat]
  | cons d ds ih =>
    simp only [bitmapNat, List.length_cons, Nat.pow_succ]
    rcases d <;> simp <;> omega

/-- The schema as the serialization layer needs it: the dimension column
types (a string-backed column's type is its unsigned id type) and the
metric column types, in declaration order. -/
structure GSchema where
  dimTypes : List GType
  metricTypes : List GType

/-- The dimension cells of one row, encoded in declaration order: each
cell occupies its type's width (a nil cell stores a zero placeholder; its
nil bit lives in the bitmap). -/
def encodeCells : List GType → List (Option Int) → List Nat
  | t :: ts, d :: ds =>
    bytesLE (t.width / 8) (cellToNat t (d.getD 0)) ++ encodeCells ts ds
  | _, _ => []

/-- The metric cells of one row, encoded in declaration order. -/
def encodeMetrics : List GType → List Int → List Nat
  | t :: ts, x :: xs =>
    bytesLE (t.width / 8) (cellToNat t x) ++ encodeMetrics ts xs
  | _, _ => []

/-- Decode the dimension cells: `b` carries the remaining nil-bitmap bits
(bit 0 = current column); returns the cells and the unconsumed bytes. -/
def decodeCells : List GType → Nat → List Nat →
    List (Option Int) × List Nat
  | [], _, bytes => ([], bytes)
  | t :: ts, b, bytes =>
    let cell : Option Int :=
      if b % 2 = 1 then none
      else some (cellFromNat t (unbytesLE (bytes.take (t.width / 8))))
    let rest := decodeCells ts (b / 2) (bytes.drop (t.width / 8))
    (cell :: rest.1, rest.2)

/-- Decode the metric cells; returns the cells and the unconsumed bytes. -/
def decodeMetrics : List GType → List Nat → List Int × List Nat
  | [], bytes => ([], bytes)
  | t :: ts, bytes =>
    let x := cellFromNat t (unbytesLE (bytes.take (t.width / 8)))
    let rest := decodeMetrics ts (bytes.drop (t.width / 8))
    (x :: rest.1, rest.2)

/-- The packed row width W of §3: nil-bitmap bytes plus the widths of the
timestamp, dimension and metric columns. -/
def rowWidth (s : GSchema) : Nat :=
  (s.dimTypes.length + 7) / 8 + 4 +
    (s.dimTypes.map fun t => t.width / 8).sum +
    (s.metricTypes.map fun t => t.width / 8).sum

/-- Modelled from the spec: the packed byte layout of one stored row (§3):
nil bitmap over the nullable dimension columns, then the `uint32`
timestamp, the dimension cells and the metric cells, little-endian. -/
def encodeRow (s : GSchema) (r : RowKey × MetricBytes) : List Nat :=
  bytesLE ((s.dimTypes.length + 7) / 8) (bitmapNat r.1.dims) ++
    bytesLE 4 r.1.ts ++ encodeCells s.dimTypes r.1.dims ++
    encodeMetrics s.metricTypes r.2

/-- Modelled from the spec: reading one packed row back from the start of
`bytes` (trailing bytes belong to the following rows). -/
def decodeRow (s : GSchema) (bytes : List Nat) : RowKey × MetricBytes :=
  let nb := (s.dimTypes.length + 7) / 8
  let b := unbytesLE (bytes.take nb)
  let rest := bytes.drop nb
  let ts := unbytesLE (rest.take 4)
  let afterTs := rest.drop 4
  let dims := decodeCells s.dimTypes b afterTs
  let metrics := decodeMetrics s.metricTypes dims.2
  (⟨ts, dims.1⟩, metrics.1)

/-- A stored row the serialization can round-trip: every cell value lies
in its column's range, the cell counts match the schema, and timestamp
and count fit in `uint32`. -/
def RowWF (s : GSchema) (r : StoredRow) : Prop :=
  r.1.ts < 2 ^ 32 ∧ r.1.dims.length = s.dimTypes.length ∧
    (∀ p ∈ s.dimTypes.zip r.1.dims, ∀ x, p.2 = some x →
      cellInRange p.1 x) ∧
    r.2.1.length = s.metricTypes.length ∧
    (∀ p ∈ s.metricTypes.zip r.2.1, cellInRange p.1 p.2) ∧
    r.2.2 < 2 ^ 32

instance decidableCellOfSome (P : Int → Prop) [DecidablePred P] :
    (o : Option Int) → Decidable (∀ x, o = some x → P x)
  | none => isTrue fun x h => by cases h
  | some y =>
    decidable_of_iff (P y)
      ⟨fun h x hx => by cases hx; exact h, fun h => h y rfl⟩

instance (s : GSchema) (r : StoredRow) : Decidable (RowWF s r) := by
  unfold RowWF
  infer_instance

theorem length_encodeCells (ts : List GType) (ds : List (Option Int))
    (h : ds.length = ts.length) :
    (encodeCells ts ds).length = (ts.map fun t => t.width / 8).sum := by
  induction ts generalizing ds with
  | nil => rcases ds <;> simp_all [encodeCells]
  | cons t ts ih =>
    rcases ds with _ | ⟨d, ds⟩
    · simp at h
    · simp only [encodeCells, List.length_append, length_bytesLE,
        List.map_cons, List.sum_cons]
      rw [ih ds (by simpa using h)]

theorem length_encodeMetrics (ts : List GType) (xs : List Int)
    (h : xs.length = ts.length) :
    (encodeMetrics ts xs).length = (ts.map fun t => t.width / 8).sum := by
  induction ts generalizing xs with
  | nil => rcases xs <;> simp_all [encodeMetrics]
  | cons t ts ih =>
    rcases xs with _ | ⟨x, xs⟩
    · simp at h
    · simp only [encodeMetrics, List.length_append, length_bytesLE,
        List.map_cons, List.sum_cons]
      rw [ih xs (by simpa using h)]

theorem length_encodeRow (s : GSchema) (r : RowKey × MetricBytes)
    (hdim : r.1.dims.length = s.dimTypes.length)
    (hm : r.2.length = s.metricTypes.length) :
    (encodeRow s r).length = rowWidth s := by
  simp only [encodeRow, rowWidth, List.length_append, length_bytesLE,
    length_encodeCells s.dimTypes r.1.dims hdim,
    length_encodeMetrics s.metricTypes r.2 hm]

theorem decodeCells_encodeCells (ts : List GType) :
    ∀ (ds : List (Option Int)) (rest : List Nat),
      ds.length = ts.length →
      (∀ p ∈ ts.zip ds, ∀ x, p.2 = some x → cellInRange p.1 x) →
      decodeCells ts (bitmapNat ds) (encodeCells ts ds ++ rest) =
        (ds, rest) := by
  induction ts with
  | nil =>
    intro ds rest hlen _
    rcases ds with _ | ⟨d, ds⟩
    · simp [decodeCells, encodeCells]
    · simp at hlen
  | cons t ts ih =>
    intro ds rest hlen hrange
    rcases ds with _ | ⟨d, ds⟩
    · simp at hlen
    · have htail := ih ds rest (by simpa using hlen)
        (fun p hp => hrange p (List.mem_cons_of_mem _ hp))
      simp only [encodeCells, List.append_assoc, decodeCells]
      rw [List.take_left' (length_bytesLE _ _),
        List.drop_left' (length_bytesLE _ _)]
      rcases d with _ | x
      · -- nil cell: bit 0 is set, the placeholder bytes are skipped
        simp only [bitmapNat, Option.isNone_none, if_true]
        have hm : (1 + 2 * bitmapNat ds) % 2 = 1 := by omega
        have hd : (1 + 2 * bitmapNat ds) / 2 = bitmapNat ds := by omega
        simp [hm, hd, htail]
      · -- stored cell: bit 0 clear, the cell bytes decode to the value
        simp only [bitmapNat, Option.isNone_some, if_false]
        have hm : ¬ (0 + 2 * bitmapNat ds) % 2 = 1 := by omega
        have hd : (0 + 2 * bitmapNat ds) / 2 = bitmapNat ds := by omega
        have hx : cellInRange t x :=
          hrange (t, some x) (List.mem_cons_self _ _) x rfl
        try simp only [Option.getD_some]
        rw [unbytesLE_bytesLE _ _ (cellToNat_lt t _),
          cellFromNat_cellToNat t x hx]
        simp [hm, hd, htail]

theorem decodeMetrics_encodeMetrics (ts : List GType) :
    ∀ (xs : List Int) (rest : List Nat),
      xs.length = ts.length →
      (∀ p ∈ ts.zip xs, cellInRange p.1 p.2) →
      decodeMetrics ts (encodeMetrics ts xs ++ rest) = (xs, rest) := by
  induction ts with
  | nil =>
    intro xs rest hlen _
    rcases xs with _ | ⟨x, xs⟩
    · simp [decodeMetrics, encodeMetrics]
    · simp at hlen
  | cons t ts ih =>
    intro xs rest hlen hrange
    rcases xs with _ | ⟨x, xs⟩
    · simp at hlen
    · have htail := ih xs rest (by simpa using hlen)
        (fun p hp => hrange p (List.mem_cons_of_mem _ hp))
      simp only [encodeMetrics, List.append_assoc, decodeMetrics]
      rw [List.take_left' (length_bytesLE _ _),
        List.drop_left' (length_bytesLE _ _)]
      rw [unbytesLE_bytesLE _ _ (cellToNat_lt t _),
        cellFromNat_cellToNat t _
          (hrange (t, x) (List.mem_cons_self _ _))]
      simp [htail]

theorem bitmapNat_lt_bytes (ds : List (Option Int)) (d : Nat)
    (h : ds.length = d) : bitmapNat ds < 256 ^ ((d + 7) / 8) := by
  have h1 := bitmapNat_lt ds
  have h2 : (2 : Nat) ^ ds.length ≤ 2 ^ (8 * ((d + 7) / 8)) :=
    Nat.pow_le_pow_right (by omega) (by omega)
  calc bitmapNat ds < 2 ^ ds.length := h1
    _ ≤ 2 ^ (8 * ((d + 7) / 8)) := h2
    _ = 256 ^ ((d + 7) / 8) := by
        rw [Nat.pow_mul]

theorem decodeRow_encodeRow (s : GSchema) (r : RowKey × MetricBytes)
    (rest : List Nat) (hts : r.1.ts < 2 ^ 32)
    (hdim : r.1.dims.length = s.dimTypes.length)
    (hdr : ∀ p ∈ s.dimTypes.zip r.1.dims, ∀ x, p.2 = some x →
      cellInRange p.1 x)
    (hm : r.2.length = s.metricTypes.length)
    (hmr : ∀ p ∈ s.metricTypes.zip r.2, cellInRange p.1 p.2) :
    decodeRow s (encodeRow s r ++ rest) = r := by
  obtain ⟨⟨ts, dims⟩, metrics⟩ := r
  simp only [encodeRow, decodeRow, List.append_assoc]
  rw [List.take_left' (length_bytesLE _ _),
    List.drop_left' (length_bytesLE _ _),
    List.take_left' (length_bytesLE _ _),
    List.drop_left' (length_bytesLE _ _)]
  rw [unbytesLE_bytesLE _ _ (bitmapNat_lt_bytes dims s.dimTypes.length hdim),
    unbytesLE_bytesLE 4 ts (by norm_num at hts ⊢; omega)]
  rw [decodeCells_encodeCells s.dimTypes dims
      (encodeMetrics s.metricTypes metrics ++ rest) hdim hdr]
  simp only []
  rw [decodeMetrics_encodeMetrics s.metricTypes metrics rest hm hmr]

/-- Modelled from the spec: a segment's `.dat` contents — the packed rows
concatenated (§6). -/
def encodeSegment (s : GSchema) (rows : List (RowKey × MetricBytes)) :
    List Nat :=
  (rows.map (encodeRow s)).flatten

/-- Modelled from the spec: the parallel `.counts` contents — one `uint32`
per row. -/
def encodeCounts (counts : List Nat) : List Nat :=
  (counts.map (bytesLE 4)).flatten

/-- Modelled from the spec: loading `n` packed rows (the row count comes
from the metadata file) back from segment bytes. -/
def decodeSegment (s : GSchema) : Nat → List Nat →
    List (RowKey × MetricBytes)
  | 0, _ => []
  | n + 1, bytes =>
    decodeRow s bytes :: decodeSegment s n (bytes.drop (rowWidth s))

/-- Modelled from the spec: loading `n` `uint32` counts. -/
def decodeCounts : Nat → List Nat → List Nat
  | 0, _ => []
  | n + 1, bytes => unbytesLE (bytes.take 4) :: decodeCounts n (bytes.drop 4)

theorem decodeSegment_encodeSegment (s : GSchema)
    (rows : List (RowKey × MetricBytes))
    (hwf : ∀ r ∈ rows, r.1.ts < 2 ^ 32 ∧
      r.1.dims.length = s.dimTypes.length ∧
      (∀ p ∈ s.dimTypes.zip r.1.dims, ∀ x, p.2 = some x →
        cellInRange p.1 x) ∧
      r.2.length = s.metricTypes.length ∧
      (∀ p ∈ s.metricTypes.zip r.2, cellInRange p.1 p.2)) :
    decodeSegment s rows.length (encodeSegment s rows) = rows := by
  induction rows with
  | nil => rfl
  | cons r rest ih =>
    obtain ⟨hts, hdim, hdr, hm, hmr⟩ := hwf r (List.mem_cons_self _ _)
    have htail : encodeSegment s (r :: rest) =
        encodeRow s r ++ encodeSegment s rest := by
      simp [encodeSegment]
    simp only [List.length_cons, decodeSegment, htail]
    rw [decodeRow_encodeRow s r (encodeSegment s rest) hts hdim hdr hm hmr,
      List.drop_left' (length_encodeRow s r hdim hm),
      ih fun r' hr' => hwf r' (List.mem_cons_of_mem _ hr')]

theorem decodeCounts_encodeCounts (counts : List Nat)
    (h : ∀ c ∈ counts, c < 2 ^ 32) :
    decodeCounts counts.length (encodeCounts counts) = counts := by
  induction counts with
  | nil => rfl
  | cons c rest ih =>
    have : encodeCounts (c :: rest) = bytesLE 4 c ++ encodeCounts rest := by
      simp [encodeCounts]
    simp only [List.length_cons, decodeCounts, this]
    rw [List.take_left' (length_bytesLE _ _),
      List.drop_left' (length_bytesLE _ _),
      unbytesLE_bytesLE 4 c (by
        have := h c (List.mem_cons_self _ _)
        norm_num at this ⊢
        omega),
      ih fun c' hc' => h c' (List.mem_cons_of_mem _ hc')]

/-! ### The DB view: MemTable + StaticTable, flush and reopen -/

/-- One interval's DB state: the immutable StaticTable rows and the
staged MemTable rows. -/
structure GDB where
  static : MemInterval
  mem : MemInterval

/-- Modelled from the spec: §4.7 step 2a — merge the MemTable rows into
the StaticTable rows for the interval, summing metrics and counts on
matching keys, with the same collapsing semantics as insert. -/
def mergeMemIntoStatic (types : List GType) (static mem : MemInterval) :
    MemInterval :=
  mem.foldl (fun acc e => upsertMem types acc e.1 e.2.1 e.2.2) static

/-- Modelled from the spec: `GetDebugRows` — the combined mem+static
listing of (row, count), collapsing a staged row into its stored row
(`TestMemAndStaticIntervalsAreCombined`). -/
def GetDebugRows (types : List GType) (db : GDB) : MemInterval :=
  mergeMemIntoStatic types db.static db.mem

/-- Modelled from the spec: flush (§4.7) — merge the MemTable into the
StaticTable, write the merged rows as segment and counts bytes, and
install the new StaticTable with an empty MemTable. -/
def flushDB (s : GSchema) (db : GDB) : GDB × List Nat × List Nat :=
  let merged := mergeMemIntoStatic s.metricTypes db.static db.mem
  (⟨merged, []⟩,
    encodeSegment s (merged.map fun e => (e.1, e.2.1)),
    encodeCounts (merged.map fun e => e.2.2))

/-- Modelled from the spec: reopening from disk — load the `numRows`
(recorded in the metadata) packed rows and counts and pair them back up;
the MemTable starts empty. -/
def reopenDB (s : GSchema) (numRows : Nat) (dat counts : List Nat) : GDB :=
  ⟨List.zipWith (fun rm c => (rm.1, rm.2, c))
    (decodeSegment s numRows dat) (decodeCounts numRows counts), []⟩

/-- **C6**: a flush followed by a reopen from the written bytes yields a
DB whose debug-rows listing of (row, count) pairs equals the pre-flush
listing (here even as a list, hence as a multiset); consequently any
single-result aggregate query over the reopened DB returns the same
result as over the original. -/
theorem C6_flush_reopen_preserves_debug_rows (s : GSchema) (db : GDB)
    (hwf : ∀ r ∈ GetDebugRows s.metricTypes db, RowWF s r) :
    GetDebugRows s.metricTypes (flushDB s db).1 =
      GetDebugRows s.metricTypes db ∧
    GetDebugRows s.metricTypes
        (reopenDB s (GetDebugRows s.metricTypes db).length
          (flushDB s db).2.1 (flushDB s db).2.2) =
      GetDebugRows s.metricTypes db ∧
    ∀ pred : StoredRow → Bool,
      invokeQuerySingle s.metricTypes pred
          (GetDebugRows s.metricTypes
            (reopenDB s (GetDebugRows s.metricTypes db).length
              (flushDB s db).2.1 (flushDB s db).2.2)) =
        invokeQuerySingle s.metricTypes pred
          (GetDebugRows s.metricTypes db) := by
  have hreopen : GetDebugRows s.metricTypes
      (reopenDB s (GetDebugRows s.metricTypes db).length
        (flushDB s db).2.1 (flushDB s db).2.2) =
      GetDebugRows s.metricTypes db := by
    set merged := GetDebugRows s.metricTypes db with hmerged
    have hseg : decodeSegment s merged.length
        (encodeSegment s (merged.map fun e => (e.1, e.2.1))) =
        merged.map fun e => (e.1, e.2.1) := by
      have := decodeSegment_encodeSegment s
        (merged.map fun e => (e.1, e.2.1)) ?_
      · simpa using this
      · intro r hr
        simp only [List.mem_map] at hr
        obtain ⟨e, he, rfl⟩ := hr
        obtain ⟨h1, h2, h3, h4, h5, -⟩ := hwf e he
        exact ⟨h1, h2, h3, h4, h5⟩
    have hcounts : decodeCounts merged.length
        (encodeCounts (merged.map fun e => e.2.2)) =
        merged.map fun e => e.2.2 := by
      have := decodeCounts_encodeCounts (merged.map fun e => e.2.2) ?_
      · simpa using this
      · intro c hc
        simp only [List.mem_map] at hc
        obtain ⟨e, he, rfl⟩ := hc
        exact (hwf e he).2.2.2.2.2
    show mergeMemIntoStatic s.metricTypes
        (List.zipWith (fun rm c => (rm.1, rm.2, c))
          (decodeSegment s merged.length
            (encodeSegment s (merged.map fun e => (e.1, e.2.1))))
          (decodeCounts merged.length
            (encodeCounts (merged.map fun e => e.2.2)))) [] = merged
    rw [hseg, hcounts]
    show List.zipWith (fun rm c => (rm.1, rm.2, c))
      (merged.map fun e => (e.1, e.2.1)) (merged.map fun e => e.2.2) =
        merged
    rw [List.zipWith_map]
    simp
  exact ⟨rfl, hreopen, fun pred => by rw [hreopen]⟩

/-- Witness for C6 at a two-row state: `static` holds
`(ts 5, dim id 1, metric 7, count 2)` and the MemTable stages a colliding
`(ts 5, dim id 1, metric 3, count 1)`; the combined listing
`[(ts 5, [some 1], [10], 3)]` survives flush plus reopen unchanged. -/
theorem C6_flush_reopen_preserves_debug_rows_witness :
    (∀ r ∈ GetDebugRows [GType.TypeUint32]
        ⟨[(⟨5, [some 1]⟩, [7], 2)], [(⟨5, [some 1]⟩, [3], 1)]⟩,
      RowWF ⟨[GType.TypeUint8], [GType.TypeUint32]⟩ r) ∧
    GetDebugRows [GType.TypeUint32]
        (reopenDB ⟨[GType.TypeUint8], [GType.TypeUint32]⟩
          (GetDebugRows [GType.TypeUint32]
            ⟨[(⟨5, [some 1]⟩, [7], 2)], [(⟨5, [some 1]⟩, [3], 1)]⟩).length
          (flushDB ⟨[GType.TypeUint8], [GType.TypeUint32]⟩
            ⟨[(⟨5, [some 1]⟩, [7], 2)], [(⟨5, [some 1]⟩, [3], 1)]⟩).2.1
          (flushDB ⟨[GType.TypeUint8], [GType.TypeUint32]⟩
            ⟨[(⟨5, [some 1]⟩, [7], 2)], [(⟨5, [some 1]⟩, [3], 1)]⟩).2.2) =
      GetDebugRows [GType.TypeUint32]
        ⟨[(⟨5, [some 1]⟩, [7], 2)], [(⟨5, [some 1]⟩, [3], 1)]⟩ :=
  ⟨by decide,
    (C6_flush_reopen_preserves_debug_rows
      ⟨[GType.TypeUint8], [GType.TypeUint32]⟩
      ⟨[(⟨5, [some 1]⟩, [7], 2)], [(⟨5, [some 1]⟩, [3], 1)]⟩
      (by decide)).2.1⟩

end Gumshoe
